import Mathlib

/-!
Verification of the marc todo-list manager (src/src/lib.rs and src/src/cli.rs)
against its natural-language specification.  Strings are modelled as lists of
characters; the file system, the external hasher and the editor process are
external collaborators and enter the model as explicit parameters.
-/

namespace Marc

/-- Strings of the Rust program, modelled as lists of characters. -/
abbrev Str := List Char

/-- The apostrophe character (U+0027), used in some diagnostic messages. -/
def apos : Char := Char.ofNat 39

/-! ### String helpers mirroring the Rust standard library -/

/-- Embeds str::trim_start (ASCII whitespace model of char::is_whitespace). -/
def trimLeft (s : Str) : Str := s.dropWhile Char.isWhitespace

/-- Embeds str::trim_end. -/
def trimRight (s : Str) : Str := (s.reverse.dropWhile Char.isWhitespace).reverse

/-- Embeds str::trim. -/
def trimList (s : Str) : Str := trimLeft (trimRight s)

/-- Splits a string at every occurrence of the character c; the result is
never empty and keeps empty pieces, like str::split. -/
def splitOnChar (c : Char) : Str → List Str
  | [] => [[]]
  | a :: rest =>
    match splitOnChar c rest with
    | [] => [[a]]
    | h :: t => if a = c then [] :: h :: t else (a :: h) :: t

/-- Splits off everything before and after the first occurrence of c,
or returns none when c does not occur. -/
def splitFirst (c : Char) : Str → Option (Str × Str)
  | [] => none
  | a :: rest =>
    if a = c then some ([], rest)
    else
      match splitFirst c rest with
      | none => none
      | some (x, y) => some (a :: x, y)

/-- Embeds str::splitn(3, c): at most three pieces, the last one verbatim. -/
def splitn3 (c : Char) (s : Str) : List Str :=
  match splitFirst c s with
  | none => [s]
  | some (a, b) =>
    match splitFirst c b with
    | none => [a, b]
    | some (x, y) => [a, x, y]

/-- Removes one trailing carriage return, as str::lines does per line. -/
def dropCR (s : Str) : Str :=
  if s.getLast? = some '\r' then s.dropLast else s

/-- Drops a final empty piece, so that a trailing line terminator does not
produce an extra empty line, as in str::lines. -/
def dropLastIfEmpty (ls : List Str) : List Str :=
  if ls.getLast? = some [] then ls.dropLast else ls

/-- Embeds str::lines: split on newline, optional final terminator,
carriage returns stripped at line ends. -/
def linesOf (s : Str) : List Str :=
  (dropLastIfEmpty (splitOnChar '\n' s)).map dropCR

/-- Digit rendering with explicit fuel (the fuel n + 1 always suffices for
the value n), so that every rendering reduces in the kernel. -/
def reprBaseAux (b : Nat) : Nat → Nat → Str
  | 0, _ => []
  | fuel + 1, n =>
    if n < b then [Nat.digitChar n]
    else reprBaseAux b fuel (n / b) ++ [Nat.digitChar (n % b)]

/-- Unpadded positional rendering of a natural number in base b. -/
def reprBase (b n : Nat) : Str := reprBaseAux b (n + 1) n

/-- Embeds the Display rendering of usize (decimal, no sign, no padding). -/
def natRepr (n : Nat) : Str := reprBase 10 n

/-- Embeds the lowercase hexadecimal rendering of u64 used by the x format
specifier: unpadded, so values below 16 ^ 6 render in fewer than 7 chars. -/
def hexString (h : Nat) : Str := reprBase 16 h

/-- Embeds str::parse::(usize): optional leading plus sign, then at least
one ASCII digit.  (Overflow is not modelled; every parsed index the program
accepts is bounded by the list length, far below usize::MAX.) -/
def parseDigits (ds : Str) : Option Nat :=
  if ds ≠ [] ∧ ds.all Char.isDigit then
    some (ds.foldl (fun a c => 10 * a + (c.toNat - 48)) 0)
  else none

/-- The sign handling of the integer FromStr implementation. -/
def parseNat? (s : Str) : Option Nat :=
  parseDigits (if s.head? = some '+' then s.tail else s)

/-! ### Data model (lib.rs) -/

/-- Embeds struct TodoItem of lib.rs. -/
structure TodoItem where
  hash : Str
  desc : Str
  is_completed : Bool
  tag : Option Str
deriving DecidableEq

/-- Placeholder item for total indexing (every use is at a provably
in-bounds index). -/
def dummyItem : TodoItem := ⟨[], [], false, none⟩

/-- The hashes of a list of items are pairwise distinct (the spec's
uniqueness invariant, section 3). -/
def HashesDistinct (items : List TodoItem) : Prop :=
  (items.map (fun it => it.hash)).Nodup

/-! ### Hash rendering (lib.rs generate_short_hash, lines 224-239) -/

/-- Embeds the byte slice s[..7] of format!: some value when the slice is
in bounds, none when the slice panics (index 7 out of bounds). -/
def firstSeven (s : Str) : Option Str :=
  if 7 ≤ s.length then some (s.take 7) else none

/-- Embeds the rendering-and-slicing stage of generate_short_hash: the
64-bit hasher output h is rendered as unpadded lowercase hex and its first
seven characters are taken.  The hasher itself (std DefaultHasher over
desc, tag and timestamp) is an external collaborator, so h is a parameter. -/
def generate_short_hash (h : Nat) : Option Str :=
  firstSeven (hexString h)

/-! ### Store operations (lib.rs TodoList impl) -/

/-- Embeds TodoList::add_item (lines 141-160).  The generated hash is a
parameter (it comes from the external hasher / clock). -/
def add_item (items : List TodoItem) (desc : Str) (tag : Option Str) (hsh : Str)
    : List TodoItem :=
  items ++ [⟨hsh, desc, false, some (tag.getD ("default").toList)⟩]

/-- Index-threading embedding of
iter().enumerate().filter(starts_with).map(index) used by rm_item and
mark_done: the indices, counted from i, of the items whose hash starts
with the prefix. -/
def matchingIndicesAux (pfx : Str) (i : Nat) : List TodoItem → List Nat
  | [] => []
  | it :: rest =>
    if pfx.isPrefixOf it.hash then i :: matchingIndicesAux pfx (i + 1) rest
    else matchingIndicesAux pfx (i + 1) rest

/-- The matching_items vector of rm_item and mark_done. -/
def matchingIndices (pfx : Str) (items : List TodoItem) : List Nat :=
  matchingIndicesAux pfx 0 items

/-- Number of items whose hash starts with the prefix (the spec's notion
of how many items a prefix matches). -/
def countMatching (pfx : Str) (items : List TodoItem) : Nat :=
  (items.filter (fun it => pfx.isPrefixOf it.hash)).length

/-- Embeds enum MarkDoneError of lib.rs. -/
inductive MarkDoneError where
  | notFound (msg : Str)
  | alreadyCompleted (msg : Str)
  | multipleMatches (pfx : Str) (found : List (Str × Str))
deriving DecidableEq

/-- Embeds TodoList::mark_done (lines 241-274); the ok result carries the
updated item list (the Rust method mutates self and returns Ok(1)). -/
def mark_done (pfx : Str) (items : List TodoItem)
    : Except MarkDoneError (List TodoItem) :=
  match matchingIndices pfx items with
  | [] =>
    .error (.notFound (("warning: no todo found with hash").toList
      ++ [apos, ' '] ++ pfx ++ [apos]))
  | [i] =>
    let it := items.getD i dummyItem
    if it.is_completed then
      .error (.alreadyCompleted ("warning: todo is already completed").toList)
    else .ok (items.set i { it with is_completed := true })
  | ms =>
    .error (.multipleMatches pfx
      (ms.map (fun i => ((items.getD i dummyItem).hash, (items.getD i dummyItem).desc))))

/-- The item list after mark_done: updated on success, untouched on error. -/
def markDoneItems (pfx : Str) (items : List TodoItem) : List TodoItem :=
  match mark_done pfx items with
  | .ok l => l
  | .error _ => items

/-- Embeds TodoList::rm_item (lines 162-180): the new list and the removed
item, if any. -/
def rm_item (pfx : Str) (items : List TodoItem)
    : List TodoItem × Option TodoItem :=
  match matchingIndices pfx items with
  | [i] => (items.eraseIdx i, some (items.getD i dummyItem))
  | _ => (items, none)

/-! ### Persistence (lib.rs load_from_file, lines 116-139) -/

/-- Embeds TodoList::load_from_file.  The file system is external:
present says whether the path exists and content is the file's text; the
serde_json deserializer is external and enters as the parameter p. -/
def load_from_file (present : Bool) (content : Str)
    (p : Str → Option (List TodoItem)) : Except Str (List TodoItem) :=
  if present = false then .ok []
  else if trimList content = [] then .ok []
  else
    match p content with
    | some items => .ok items
    | none => .error ("error: failed to parse todo file").toList

/-! ### Edit workflow (lib.rs edit and parse_edit_commands, lines 373-458) -/

/-- The index (0-based) of the original item a single edit-buffer line acts
on, or none when the line is skipped or is a drop.  Mirrors the body of the
loop of parse_edit_commands: trim, skip blank and comment lines, split into
at most three fields, parse and range-check the 1-based index, then match
the verb (pick and p keep, drop and d remove, any other verb keeps). -/
def editLineIndexCore (n : Nat) (line : Str) : Option Nat :=
  if line = [] then none
  else if line.head? = some '#' then none
  else
    match splitn3 ' ' line with
    | cmd :: idxStr :: _ =>
      match parseNat? idxStr with
      | some i =>
        if 0 < i ∧ i ≤ n then
          if cmd = ("drop").toList ∨ cmd = ("d").toList then none
          else some (i - 1)
        else none
      | none => none
    | _ => none

/-- The line is trimmed first (let line = line.trim() in the Rust loop). -/
def editLineIndex (n : Nat) (rawLine : Str) : Option Nat :=
  editLineIndexCore n (trimList rawLine)

/-- The item contributed by one edit-buffer line (original_items.get). -/
def editLineItem (orig : List TodoItem) (rawLine : Str) : Option TodoItem :=
  match editLineIndex orig.length rawLine with
  | some i => orig.get? i
  | none => none

/-- Embeds parse_edit_commands: each line contributes at most one item
(the Rust loop pushes clones of the original items in line order). -/
def parse_edit_commands (content : Str) (orig : List TodoItem)
    : List TodoItem :=
  (linesOf content).filterMap (editLineItem orig)

/-- The sequence of 0-based indices the effective (non-drop, valid) lines
of an edit buffer pick, for an original list of length n. -/
def picks (content : Str) (n : Nat) : List Nat :=
  (linesOf content).filterMap (editLineIndex n)

/-- One serialized directive line: pick, 1-based index, description,
newline (writeln! in edit, line 383). -/
def pickRow (i : Nat) (it : TodoItem) : Str :=
  ("pick ").toList ++ natRepr (i + 1) ++ ' ' :: it.desc ++ ['\n']

/-- The directive lines for the items, numbering from index i. -/
def pickLinesAux (i : Nat) : List TodoItem → Str
  | [] => []
  | it :: rest => pickRow i it ++ pickLinesAux (i + 1) rest

/-- The comment block written after the directive lines (lines 386-390). -/
def editTrailer : Str :=
  ("\n# Interactive todo editing\n# Commands:\n#   pick, p <todo> = keep the todo\n#   drop, d <todo> = remove the todo\n# Lines starting with # are ignored\n").toList

/-- The full scratch-buffer text the edit command writes for a list. -/
def editBuffer (items : List TodoItem) : Str :=
  pickLinesAux 0 items ++ editTrailer

/-! ### The done command (lib.rs done, lines 461-518) -/

/-- Classification of what one hash-prefix target of a done invocation
produced, mirroring the match arms of the loop of done. -/
inductive TargetOutcome where
  | success
  | emptyPfx
  | notFound (msg : Str)
  | alreadyCompleted (msg : Str)
  | multipleMatches (pfx : Str) (found : List (Str × Str))
deriving DecidableEq

/-- Whether the outcome incremented completed_count. -/
def isSuccessOutcome : TargetOutcome → Bool
  | .success => true
  | _ => false

/-- The message the outcome pushed onto the errors vector of done, if
any.  MultipleMatches is only printed, never pushed (lines 488-496). -/
def outcomeErrMsg : TargetOutcome → Option Str
  | .emptyPfx => some ("Empty hash prefix provided").toList
  | .notFound m => some m
  | .alreadyCompleted m => some m
  | _ => none

/-- One iteration of the loop of done over a prefix. -/
def doneStep (items : List TodoItem) (pfx : Str)
    : List TodoItem × TargetOutcome :=
  if trimList pfx = [] then (items, .emptyPfx)
  else
    match mark_done pfx items with
    | .ok newItems => (newItems, .success)
    | .error (.notFound m) => (items, .notFound m)
    | .error (.alreadyCompleted m) => (items, .alreadyCompleted m)
    | .error (.multipleMatches p ms) => (items, .multipleMatches p ms)

/-- The whole loop of done: final item list and outcome per target. -/
def doneLoop (items : List TodoItem) : List Str → List TodoItem × List TargetOutcome
  | [] => (items, [])
  | p :: ps =>
    let (its, o) := doneStep items p
    let (fin, os) := doneLoop its ps
    (fin, o :: os)

/-- The observable result of a done invocation: the returned Result, the
final item list, whether save_to_file ran, and the per-target outcomes. -/
structure DoneResult where
  res : Except Str Unit
  items : List TodoItem
  saved : Bool
  outcomes : List TargetOutcome

/-- Embeds the done command (lines 461-518): empty store is an early
error; otherwise every prefix is processed, the list is saved when
completed_count is positive, and the invocation fails only when
completed_count is zero and the errors vector is non-empty. -/
def done (prefixes : List Str) (items : List TodoItem) : DoneResult :=
  if items.isEmpty then
    ⟨.error ("No todos available to mark as done").toList, items, false, []⟩
  else
    let (fin, outs) := doneLoop items prefixes
    let count := (outs.filter isSuccessOutcome).length
    let errs := outs.filterMap outcomeErrMsg
    ⟨if count = 0 ∧ errs ≠ [] then
        .error ("No todos were marked as done").toList
      else .ok (),
     fin, count ≠ 0, outs⟩

/-! ### The add command (lib.rs get_flag and add, lines 295-340) -/

/-- Embeds get_flag: position of the first token equal to one of the
aliases, then the following token as the value. -/
def get_flag (aliases : List Str) (args : List Str) : Option Str :=
  match args.findIdx? (fun e => aliases.contains e) with
  | some pos => args.get? (pos + 1)
  | none => none

/-- The add loop over the provided todo texts (lines 331-336): an
empty-after-trim text aborts the whole command; hashes come from the
external hasher, supplied as an oracle indexed by position. -/
def addLoop (oracle : Nat → Str) : Nat → List TodoItem → List Str → Option Str
    → Except Str (List TodoItem)
  | _, items, [], _ => .ok items
  | j, items, todo :: rest, tag =>
    if trimList todo = [] then .error ("Todo items cannot be empty").toList
    else addLoop oracle (j + 1) (add_item items todo tag (oracle j)) rest tag

/-- Embeds the add command (lines 302-340) on a loaded item list: the
result is the list that would be saved, or the error the command returns.
Note the None arm of the get_flag match returns an error, so an
invocation without a tag flag never reaches the add loop. -/
def add (oracle : Nat → Str) (items : List TodoItem) (args : List Str)
    : Except Str (List TodoItem) :=
  match get_flag [("-t").toList, ("--tag").toList] args with
  | some tv =>
    if tv = [] then
      .error ("--tag option requires a non-empty value.\nUsage: marc add --tag <tagname> <todo>").toList
    else if args.get? 2 = none then
      .error ("did not specify the todo content").toList
    else
      let todos := args.drop 2
      if todos = [] then
        .error ("No todos provided after tag option.\nUsage: marc add --tag <tagname> <todo>").toList
      else addLoop oracle 0 items todos (some tv)
  | none =>
    .error ("--tag option requires a value.\nUsage: marc add --tag <tagname> <todo>").toList

/-! ### The log command (spec section 4.2, List) -/

/-- Modelled from the spec: the filtering List operation.  lib.rs's
list_items (lines 197-222) prints every item and accepts no filters, and
the handler that would consume Log's declared tag, done and undone
flags (cli.rs lines 71-87) is not present under src, so the read
operation is modelled from the spec sentence: items matching the tag
exactly (when given) and, under the completed-only filter, restricted to
completed items; a pure read. -/
def list_items (items : List TodoItem) (tagFilter : Option Str)
    (doneOnly : Bool) : List TodoItem :=
  items.filter (fun it =>
    (match tagFilter with
     | some t => it.tag == some t
     | none => true)
    && (!doneOnly || it.is_completed))

/-! ### Argument parser (cli.rs) -/

/-- Embeds enum Subcommand of cli.rs. -/
inductive Subcommand where
  | add | log | remove | edit | help | done | version
deriving DecidableEq

/-- Embeds enum ArgKind of cli.rs. -/
inductive ArgKind where
  | flag | option
deriving DecidableEq

/-- Embeds struct ArgSpec of cli.rs. -/
structure ArgSpec where
  name : Str
  short : Char
  long : Str
  kind : ArgKind
deriving DecidableEq

/-- The help ArgSpec the define_args macro attaches after every declared
argument (cli.rs lines 48-53).  Note its long alias is the literal
with two leading dashes, unlike the declared specs. -/
def helpSpec : ArgSpec :=
  ⟨("help").toList, 'h', ("--help").toList, .flag⟩

/-- Embeds the expansion of get_arg_specs_for for the table of cli.rs
lines 63-99: the help spec is emitted once per declared argument (it is
inside the per-argument macro repetition), so subcommands declaring no
arguments get an empty spec list. -/
def get_arg_specs_for : Subcommand → List ArgSpec
  | .add => [⟨("tag").toList, 't', ("tag").toList, .option⟩, helpSpec]
  | .log =>
    [⟨("tag").toList, 't', ("tag").toList, .option⟩, helpSpec,
     ⟨("done").toList, 'd', ("done").toList, .flag⟩, helpSpec,
     ⟨("undone").toList, 'u', ("undone").toList, .flag⟩, helpSpec]
  | .remove => [⟨("done").toList, 'd', ("done").toList, .flag⟩, helpSpec]
  | .edit => []
  | .help => []
  | .done => []
  | .version => []

/-- Embeds enum Arg of cli.rs. -/
inductive Arg where
  | option (name value : Str)
  | flag (name : Str)
  | value (raw : Str)
deriving DecidableEq

/-- Embeds enum ParseError of cli.rs. -/
inductive ParseError where
  | unknownArg (token : Str)
  | missing (switch : Str)
deriving DecidableEq

/-- Embeds str::strip_prefix of two dashes. -/
def stripTwoDash : Str → Option Str
  | '-' :: '-' :: rest => some rest
  | _ => none

/-- Embeds str::strip_prefix of one dash (tried after the two-dash form). -/
def stripOneDash : Str → Option Str
  | '-' :: rest => some rest
  | _ => none

/-- The inner loop of parse_args over a short-alias cluster (cli.rs lines
230-254): each character is resolved against flags then options; an
option character consumes the next still-unconsumed token.  Returns the
produced args and the tokens remaining after consumption. -/
def clusterGo (flags options : List ArgSpec)
    : List Char → List Str → Except ParseError (List Arg × List Str)
  | [], rest => .ok ([], rest)
  | c :: cs, rest =>
    match flags.find? (fun f => f.short = c) with
    | some sp =>
      match clusterGo flags options cs rest with
      | .ok (as, r) => .ok (.flag sp.name :: as, r)
      | .error e => .error e
    | none =>
      match options.find? (fun o => o.short = c) with
      | some sp =>
        match rest with
        | v :: rest2 =>
          match clusterGo flags options cs rest2 with
          | .ok (as, r) => .ok (.option sp.name v :: as, r)
          | .error e => .error e
        | [] => .error (.missing [c])
      | none => .error (.unknownArg [c])

/-- The token loop of parse_args (cli.rs lines 205-259).  The fuel
argument only bounds the number of outer iterations (each outer
iteration consumes at least the current token, so the token count is
enough fuel and the zero-fuel arm with tokens left is unreachable). -/
def parseArgsGo (flags options : List ArgSpec)
    : Nat → List Str → Except ParseError (List Arg)
  | _, [] => .ok []
  | 0, _ :: _ => .ok []
  | fuel + 1, t :: rest =>
    match stripTwoDash t with
    | some argName =>
      match flags.find? (fun f => f.long = argName) with
      | some sp =>
        match parseArgsGo flags options fuel rest with
        | .ok as => .ok (.flag sp.name :: as)
        | .error e => .error e
      | none =>
        match options.find? (fun o => o.long = argName) with
        | some sp =>
          match rest with
          | next :: rest2 =>
            match parseArgsGo flags options fuel rest2 with
            | .ok as => .ok (.option sp.name next :: as)
            | .error e => .error e
          | [] => .error (.missing argName)
        | none => .error (.unknownArg argName)
    | none =>
      match stripOneDash t with
      | some cluster =>
        match clusterGo flags options cluster rest with
        | .ok (as, r) =>
          match parseArgsGo flags options fuel r with
          | .ok as2 => .ok (as ++ as2)
          | .error e => .error e
        | .error e => .error e
      | none =>
        match parseArgsGo flags options fuel rest with
        | .ok as => .ok (.value t :: as)
        | .error e => .error e

/-- Embeds CommandLine::parse_args (cli.rs lines 189-261): the spec list
is split into flags and options once, then tokens are classified in a
single left-to-right pass. -/
def parse_args (specs : List ArgSpec) (tokens : List Str)
    : Except ParseError (List Arg) :=
  parseArgsGo (specs.filter (fun s => s.kind = .flag))
    (specs.filter (fun s => s.kind = .option)) tokens.length tokens

/-! ### Reachable store states (claim C2) -/

/-- The states the store can reach through its operations, starting from
the empty list: add_item with any externally generated hash, rm_item,
mark_done, and edit re-ingestion of any buffer content (the edit command
requires a non-empty list before launching the editor). -/
inductive Reachable : List TodoItem → Prop where
  | empty : Reachable []
  | add (s : List TodoItem) (desc : Str) (tag : Option Str) (hsh : Str) :
      Reachable s → Reachable (add_item s desc tag hsh)
  | rm (s : List TodoItem) (pfx : Str) :
      Reachable s → Reachable (rm_item pfx s).1
  | markDone (s : List TodoItem) (pfx : Str) :
      Reachable s → Reachable (markDoneItems pfx s)
  | edit (s : List TodoItem) (content : Str) :
      Reachable s → s ≠ [] → Reachable (parse_edit_commands content s)

/-- Reachability restricted by the two guards the code does not enforce:
every generated hash is fresh, and every edit buffer picks pairwise
distinct indices. -/
inductive GuardedReachable : List TodoItem → Prop where
  | empty : GuardedReachable []
  | add (s : List TodoItem) (desc : Str) (tag : Option Str) (hsh : Str) :
      GuardedReachable s → hsh ∉ s.map (fun it => it.hash) →
      GuardedReachable (add_item s desc tag hsh)
  | rm (s : List TodoItem) (pfx : Str) :
      GuardedReachable s → GuardedReachable (rm_item pfx s).1
  | markDone (s : List TodoItem) (pfx : Str) :
      GuardedReachable s → GuardedReachable (markDoneItems pfx s)
  | edit (s : List TodoItem) (content : Str) :
      GuardedReachable s → s ≠ [] → (picks content s.length).Nodup →
      GuardedReachable (parse_edit_commands content s)

/-! ### Sample data for concrete witnesses and counterexamples -/

/-- A pending item with hash a1x. -/
def itemA1 : TodoItem :=
  ⟨("a1x").toList, ("alpha").toList, false, some ("default").toList⟩

/-- A completed item with hash a2x, sharing the prefix a with itemA1. -/
def itemA2 : TodoItem :=
  ⟨("a2x").toList, ("beta").toList, true, some ("work").toList⟩

/-- An item whose description embeds a newline followed by a line that the
edit-command parser reads as a directive. -/
def itemNl : TodoItem :=
  ⟨("aaaaaaa").toList, ("x\nfoo 1").toList, false, some ("default").toList⟩

/-! ## Helper lemmas -/

theorem matchingIndicesAux_shift (pfx : Str) (k : Nat) (items : List TodoItem) :
    matchingIndicesAux pfx k items
      = (matchingIndicesAux pfx 0 items).map (fun i => i + k) := by
  have hf : ∀ m : Nat, ((fun i => i + m) ∘ fun i : Nat => i + 1) = fun i => i + (m + 1) := by
    intro m
    funext i
    simp [Function.comp]
    omega
  induction items generalizing k with
  | nil => simp [matchingIndicesAux]
  | cons it rest ih =>
    simp only [matchingIndicesAux]
    by_cases h : pfx.isPrefixOf it.hash
    · simp only [h, if_true, List.map_cons, Nat.zero_add]
      rw [ih (k + 1), ih 1, List.map_map, hf]
    · simp only [h, Bool.false_eq_true, if_false]
      rw [ih (k + 1), ih 1, List.map_map, hf]

theorem matchingIndices_cons (pfx : Str) (it : TodoItem) (rest : List TodoItem) :
    matchingIndices pfx (it :: rest)
      = if pfx.isPrefixOf it.hash then
          0 :: (matchingIndices pfx rest).map (fun i => i + 1)
        else (matchingIndices pfx rest).map (fun i => i + 1) := by
  unfold matchingIndices
  simp only [matchingIndicesAux]
  rw [matchingIndicesAux_shift pfx 1 rest]

theorem matchingIndices_map_getD (pfx : Str) (items : List TodoItem) (d : TodoItem) :
    (matchingIndices pfx items).map (fun i => items.getD i d)
      = items.filter (fun it => pfx.isPrefixOf it.hash) := by
  have hcomp : ∀ (a : TodoItem) (l : List TodoItem),
      ((fun i => (a :: l).getD i d) ∘ fun i : Nat => i + 1) = fun i => l.getD i d := by
    intro a l
    funext i
    simp [Function.comp, List.getD]
  induction items with
  | nil => simp [matchingIndices, matchingIndicesAux]
  | cons it rest ih =>
    rw [matchingIndices_cons, List.filter_cons]
    by_cases h : pfx.isPrefixOf it.hash
    · rw [if_pos h, if_pos h, List.map_cons, List.map_map, hcomp, ih]
      simp [List.getD]
    · rw [if_neg (by simp [h]), if_neg (by simp [h]), List.map_map, hcomp, ih]

theorem matchingIndices_mem (pfx : Str) (items : List TodoItem) :
    ∀ i ∈ matchingIndices pfx items,
      i < items.length ∧ pfx.isPrefixOf ((items.getD i dummyItem).hash) = true := by
  induction items with
  | nil => simp [matchingIndices, matchingIndicesAux]
  | cons it rest ih =>
    rw [matchingIndices_cons]
    intro i hi
    by_cases h : pfx.isPrefixOf it.hash
    · simp only [h, if_true, List.mem_cons, List.mem_map] at hi
      rcases hi with rfl | ⟨j, hj, rfl⟩
      · simpa using h
      · rcases ih j hj with ⟨hlen, hpred⟩
        exact ⟨by simpa using Nat.succ_lt_succ hlen, by simpa using hpred⟩
    · simp only [h, Bool.false_eq_true, if_false, List.mem_map] at hi
      rcases hi with ⟨j, hj, rfl⟩
      rcases ih j hj with ⟨hlen, hpred⟩
      exact ⟨by simpa using Nat.succ_lt_succ hlen, by simpa using hpred⟩

theorem countMatching_eq_length (pfx : Str) (items : List TodoItem) :
    countMatching pfx items = (matchingIndices pfx items).length := by
  unfold countMatching
  rw [← matchingIndices_map_getD pfx items dummyItem, List.length_map]

/-! ## Claim theorems -/

/-- Claim C1 (code bug witness): the add command invoked with a single
non-empty, non-whitespace description and no tag argument does not append
an item with tag default; get_flag finds no tag alias, and the None arm
of the match in add (lib.rs line 312) returns the missing-value error, so
the command fails before reaching the add loop. -/
theorem add_no_tag_is_error :
    trimList (("buy milk").toList) ≠ []
    ∧ Marc.add (fun _ => []) [] [("buy milk").toList]
      = .error ("--tag option requires a value.\nUsage: marc add --tag <tagname> <todo>").toList :=
  ⟨by decide, rfl⟩

/-- Claim C10 (code bug witness): the rendering-and-slicing stage of
generate_short_hash applied to the hasher output 0: the unpadded hex
rendering is the single character 0, so the byte slice s[..7] is out of
bounds and the generator panics instead of returning a 7-character
string.  At the boundary 16 ^ 6 = 0x1000000 the rendering reaches seven
characters and the slice succeeds. -/
theorem short_hash_slice_out_of_bounds :
    generate_short_hash 0 = none
    ∧ (hexString 0).length = 1
    ∧ generate_short_hash 16777216 = some ("1000000").toList :=
  ⟨rfl, rfl, rfl⟩

/-- Claim C7 (code bug witness): the help flag is not accepted everywhere.
For the edit subcommand (which declares no arguments, so the macro emits
no help spec at all) both long and short help tokens are unknown-argument
errors; for add, the long form fails as well, because the table stores
the long alias with its two leading dashes while parse_args compares
against the token with the dashes stripped.  Only the short form on a
subcommand with at least one declared argument yields Flag(help). -/
theorem help_flag_rejected :
    parse_args (get_arg_specs_for .edit) [("--help").toList]
      = .error (.unknownArg ("help").toList)
    ∧ parse_args (get_arg_specs_for .edit) [("-h").toList]
      = .error (.unknownArg ("h").toList)
    ∧ parse_args (get_arg_specs_for .add) [("--help").toList]
      = .error (.unknownArg ("help").toList)
    ∧ parse_args (get_arg_specs_for .add) [("-h").toList]
      = .ok [.flag ("help").toList] :=
  ⟨rfl, rfl, rfl, rfl⟩

/-- Claim C8: load_from_file yields the empty list for a missing file and
for a present file whose content trims to nothing, and surfaces a load
error (never an empty list) when the present, non-blank content does not
deserialize. -/
theorem load_from_file_cases (present : Bool) (content : Str)
    (p : Str → Option (List TodoItem)) :
    (present = false → load_from_file present content p = .ok [])
    ∧ (trimList content = [] → load_from_file present content p = .ok [])
    ∧ (present = true → trimList content ≠ [] → p content = none →
        load_from_file present content p
          = .error ("error: failed to parse todo file").toList) := by
  refine ⟨fun h => ?_, fun h => ?_, fun h1 h2 h3 => ?_⟩
  · simp [load_from_file, h]
  · cases present <;> simp [load_from_file, h]
  · simp [load_from_file, h1, h2, h3]

/-- Claim C8 witness: the three cases at concrete inputs. -/
theorem load_from_file_cases_witness :
    load_from_file false (("junk").toList) (fun _ => none) = .ok []
    ∧ load_from_file true (("  \n ").toList) (fun _ => some [dummyItem]) = .ok []
    ∧ load_from_file true (("junk").toList) (fun _ => none)
      = .error ("error: failed to parse todo file").toList :=
  ⟨(load_from_file_cases false (("junk").toList) (fun _ => none)).1 rfl,
   (load_from_file_cases true (("  \n ").toList) (fun _ => some [dummyItem])).2.1 (by decide),
   (load_from_file_cases true (("junk").toList) (fun _ => none)).2.2 rfl (by decide) rfl⟩

/-- Claim C5 (modelled from the spec, see list_items): the filtering List
operation returns exactly the items whose tag equals the given filter and,
under the completed-only filter, only completed items; it is a pure read
returning a subsequence of the store, which it leaves untouched. -/
theorem list_items_filter_spec (items : List TodoItem) (tagFilter : Option Str)
    (doneOnly : Bool) :
    (list_items items tagFilter doneOnly).Sublist items
    ∧ ∀ x, x ∈ list_items items tagFilter doneOnly ↔
        x ∈ items
        ∧ (∀ t, tagFilter = some t → x.tag = some t)
        ∧ (doneOnly = true → x.is_completed = true) := by
  constructor
  · exact List.filter_sublist items
  · intro x
    cases tagFilter with
    | none => cases doneOnly <;> simp [list_items, List.mem_filter]
    | some t =>
      cases doneOnly <;> simp [list_items, List.mem_filter, and_assoc]

/-- Claim C3: mark_done fails with NotFound when no item's hash starts
with the prefix; with exactly one match it fails with AlreadyCompleted if
that item is completed and otherwise sets its completed field and
succeeds; with several matches it fails with MultipleMatches carrying the
prefix and the hash-description pair of every matching item, in list
order. -/
theorem mark_done_cases (items : List TodoItem) (pfx : Str) :
    (countMatching pfx items = 0 →
      mark_done pfx items = .error (.notFound (("warning: no todo found with hash").toList
        ++ [apos, ' '] ++ pfx ++ [apos])))
    ∧ (countMatching pfx items = 1 →
        ∃ i, i < items.length
          ∧ pfx.isPrefixOf ((items.getD i dummyItem).hash) = true
          ∧ ((items.getD i dummyItem).is_completed = true →
              mark_done pfx items
                = .error (.alreadyCompleted ("warning: todo is already completed").toList))
          ∧ ((items.getD i dummyItem).is_completed = false →
              mark_done pfx items
                = .ok (items.set i { items.getD i dummyItem with is_completed := true })))
    ∧ (2 ≤ countMatching pfx items →
        mark_done pfx items = .error (.multipleMatches pfx
          ((items.filter (fun it => pfx.isPrefixOf it.hash)).map
            (fun it => (it.hash, it.desc))))) := by
  rw [countMatching_eq_length]
  refine ⟨fun h0 => ?_, fun h1 => ?_, fun h2 => ?_⟩
  · rw [List.length_eq_zero] at h0
    rw [mark_done, h0]
  · rw [List.length_eq_one] at h1
    obtain ⟨i, hi⟩ := h1
    obtain ⟨hlt, hpre⟩ := matchingIndices_mem pfx items i (by rw [hi]; exact List.mem_singleton_self i)
    refine ⟨i, hlt, hpre, fun hc => ?_, fun hc => ?_⟩
    · rw [mark_done, hi]
      simp only [hc, if_true]
    · rw [mark_done, hi]
      simp only [hc, Bool.false_eq_true, if_false]
  · match hm : matchingIndices pfx items with
    | [] => rw [hm] at h2; simp at h2
    | [i] => rw [hm] at h2; simp at h2
    | a :: b :: t =>
      rw [mark_done, hm]
      refine congrArg _ (congrArg _ ?_)
      have : ((a :: b :: t).map (fun i => items.getD i dummyItem)).map
          (fun it => (it.hash, it.desc))
          = (a :: b :: t).map (fun i => ((items.getD i dummyItem).hash, (items.getD i dummyItem).desc)) := by
        rw [List.map_map]
        rfl
      rw [← this, ← hm, matchingIndices_map_getD]

/-- Claim C3 witness: the four cases at concrete inputs (hashes a1x, a2x
and b1x, with the a2x item already completed): a miss, a unique completed
match, a unique pending match, and an ambiguous two-item match. -/
theorem mark_done_cases_witness :
    (mark_done (("zz").toList)
        [⟨("a1x").toList, ("alpha").toList, false, some ("default").toList⟩]
      = .error (.notFound (("warning: no todo found with hash").toList
        ++ [apos, ' '] ++ ("zz").toList ++ [apos])))
    ∧ (∃ i, i < ([⟨("a2x").toList, ("beta").toList, true, some ("work").toList⟩] : List TodoItem).length
        ∧ (("a2").toList).isPrefixOf (([⟨("a2x").toList, ("beta").toList, true, some ("work").toList⟩] : List TodoItem).getD i dummyItem).hash = true
        ∧ ((([⟨("a2x").toList, ("beta").toList, true, some ("work").toList⟩] : List TodoItem).getD i dummyItem).is_completed = true →
            mark_done (("a2").toList) [⟨("a2x").toList, ("beta").toList, true, some ("work").toList⟩]
              = .error (.alreadyCompleted ("warning: todo is already completed").toList))
        ∧ ((([⟨("a2x").toList, ("beta").toList, true, some ("work").toList⟩] : List TodoItem).getD i dummyItem).is_completed = false →
            mark_done (("a2").toList) [⟨("a2x").toList, ("beta").toList, true, some ("work").toList⟩]
              = .ok (([⟨("a2x").toList, ("beta").toList, true, some ("work").toList⟩] : List TodoItem).set i
                  { ([⟨("a2x").toList, ("beta").toList, true, some ("work").toList⟩] : List TodoItem).getD i dummyItem with is_completed := true })))
    ∧ (mark_done (("a").toList)
        [⟨("a1x").toList, ("alpha").toList, false, some ("default").toList⟩,
         ⟨("a2x").toList, ("beta").toList, true, some ("work").toList⟩]
      = .error (.multipleMatches (("a").toList)
          [((("a1x").toList), (("alpha").toList)), ((("a2x").toList), (("beta").toList))])) :=
  ⟨(mark_done_cases [⟨("a1x").toList, ("alpha").toList, false, some ("default").toList⟩]
      (("zz").toList)).1 (by decide),
   (mark_done_cases [⟨("a2x").toList, ("beta").toList, true, some ("work").toList⟩]
      (("a2").toList)).2.1 (by decide),
   by
    have h := (mark_done_cases
      [⟨("a1x").toList, ("alpha").toList, false, some ("default").toList⟩,
       ⟨("a2x").toList, ("beta").toList, true, some ("work").toList⟩]
      (("a").toList)).2.2 (by decide)
    rw [h]
    rfl⟩

/-- Claim C4: rm_item removes and returns the unique item whose hash
starts with the prefix when exactly one item matches, and is a no-op
returning nothing when zero or more than one item matches. -/
theorem rm_item_cases (items : List TodoItem) (pfx : Str) :
    (countMatching pfx items = 1 →
      ∃ i, i < items.length
        ∧ pfx.isPrefixOf ((items.getD i dummyItem).hash) = true
        ∧ rm_item pfx items = (items.eraseIdx i, some (items.getD i dummyItem)))
    ∧ (countMatching pfx items ≠ 1 → rm_item pfx items = (items, none)) := by
  rw [countMatching_eq_length]
  constructor
  · intro h1
    rw [List.length_eq_one] at h1
    obtain ⟨i, hi⟩ := h1
    obtain ⟨hlt, hpre⟩ := matchingIndices_mem pfx items i (by rw [hi]; exact List.mem_singleton_self i)
    exact ⟨i, hlt, hpre, by rw [rm_item, hi]⟩
  · intro hne
    match hm : matchingIndices pfx items with
    | [] => rw [rm_item, hm]
    | [i] => rw [hm] at hne; simp at hne
    | a :: b :: t => rw [rm_item, hm]

/-- Claim C4 witness: with items hashed a1x and a2x, prefix a1 removes
exactly the first item; the ambiguous prefix a and the absent prefix zz
leave the list unchanged and return nothing. -/
theorem rm_item_cases_witness :
    (∃ i, i < ([⟨("a1x").toList, ("alpha").toList, false, some ("default").toList⟩,
          ⟨("a2x").toList, ("beta").toList, true, some ("work").toList⟩] : List TodoItem).length
      ∧ (("a1").toList).isPrefixOf (([⟨("a1x").toList, ("alpha").toList, false, some ("default").toList⟩,
          ⟨("a2x").toList, ("beta").toList, true, some ("work").toList⟩] : List TodoItem).getD i dummyItem).hash = true
      ∧ rm_item (("a1").toList)
          [⟨("a1x").toList, ("alpha").toList, false, some ("default").toList⟩,
           ⟨("a2x").toList, ("beta").toList, true, some ("work").toList⟩]
        = (([⟨("a1x").toList, ("alpha").toList, false, some ("default").toList⟩,
             ⟨("a2x").toList, ("beta").toList, true, some ("work").toList⟩] : List TodoItem).eraseIdx i,
           some (([⟨("a1x").toList, ("alpha").toList, false, some ("default").toList⟩,
             ⟨("a2x").toList, ("beta").toList, true, some ("work").toList⟩] : List TodoItem).getD i dummyItem)))
    ∧ rm_item (("a").toList)
        [⟨("a1x").toList, ("alpha").toList, false, some ("default").toList⟩,
         ⟨("a2x").toList, ("beta").toList, true, some ("work").toList⟩]
      = ([⟨("a1x").toList, ("alpha").toList, false, some ("default").toList⟩,
          ⟨("a2x").toList, ("beta").toList, true, some ("work").toList⟩], none)
    ∧ rm_item (("zz").toList)
        [⟨("a1x").toList, ("alpha").toList, false, some ("default").toList⟩,
         ⟨("a2x").toList, ("beta").toList, true, some ("work").toList⟩]
      = ([⟨("a1x").toList, ("alpha").toList, false, some ("default").toList⟩,
          ⟨("a2x").toList, ("beta").toList, true, some ("work").toList⟩], none) :=
  ⟨(rm_item_cases
      [⟨("a1x").toList, ("alpha").toList, false, some ("default").toList⟩,
       ⟨("a2x").toList, ("beta").toList, true, some ("work").toList⟩]
      (("a1").toList)).1 (by decide),
   (rm_item_cases
      [⟨("a1x").toList, ("alpha").toList, false, some ("default").toList⟩,
       ⟨("a2x").toList, ("beta").toList, true, some ("work").toList⟩]
      (("a").toList)).2 (by decide),
   (rm_item_cases
      [⟨("a1x").toList, ("alpha").toList, false, some ("default").toList⟩,
       ⟨("a2x").toList, ("beta").toList, true, some ("work").toList⟩]
      (("zz").toList)).2 (by decide)⟩

/-- Claim C6 (counterexample): an invocation of done on a non-empty list
with the single, ambiguous target a finds MultipleMatches for its only
target, so no target is marked done — yet the invocation returns Ok,
because MultipleMatches is only printed and never pushed onto the errors
vector (lib.rs lines 488-496), and the overall-failure check only
consults that vector.  The claim says such an invocation must fail. -/
theorem done_all_targets_failed_yet_ok :
    (Marc.done [("a").toList] [itemA1, itemA2]).res = .ok ()
    ∧ (∀ o ∈ (Marc.done [("a").toList] [itemA1, itemA2]).outcomes,
        isSuccessOutcome o = false)
    ∧ (Marc.done [("a").toList] [itemA1, itemA2]).outcomes ≠ []
    ∧ (Marc.done [("a").toList] [itemA1, itemA2]).saved = false :=
  ⟨rfl, by decide, by decide, rfl⟩

/-- Claim C6 (amended): on a non-empty list with a non-empty target
sequence, the done invocation succeeds iff at least one target was marked
done or every failed target failed with MultipleMatches; equivalently it
fails iff no target succeeded and at least one target failed with
NotFound, AlreadyCompleted or an empty prefix (the failures that reach
the errors vector); and the list is persisted exactly when at least one
target was marked done. -/
theorem done_overall_policy (prefixes : List Str) (items : List TodoItem)
    (hp : prefixes ≠ []) (hi : items ≠ []) :
    ((Marc.done prefixes items).res = .ok ()
      ↔ ((∃ o ∈ (Marc.done prefixes items).outcomes, isSuccessOutcome o = true)
          ∨ (∀ o ∈ (Marc.done prefixes items).outcomes, outcomeErrMsg o = none)))
    ∧ ((Marc.done prefixes items).saved = true
      ↔ (∃ o ∈ (Marc.done prefixes items).outcomes, isSuccessOutcome o = true)) := by
  clear hp
  have hne : items.isEmpty = false := by
    cases items with
    | nil => exact absurd rfl hi
    | cons a l => rfl
  rcases hdl : doneLoop items prefixes with ⟨fin, outs⟩
  have hcount : ((outs.filter isSuccessOutcome).length ≠ 0)
      ↔ ∃ o ∈ outs, isSuccessOutcome o = true := by
    rw [Ne, List.length_eq_zero]
    constructor
    · intro h
      obtain ⟨o, ho⟩ := List.exists_mem_of_ne_nil _ h
      exact ⟨o, (List.mem_filter.1 ho).1, (List.mem_filter.1 ho).2⟩
    · rintro ⟨o, ho, hs⟩ hnil
      have hmem : o ∈ outs.filter isSuccessOutcome := List.mem_filter.2 ⟨ho, hs⟩
      rw [hnil] at hmem
      exact absurd hmem (List.not_mem_nil o)
  have herrs : (outs.filterMap outcomeErrMsg = [])
      ↔ ∀ o ∈ outs, outcomeErrMsg o = none := List.filterMap_eq_nil_iff
  simp only [Marc.done, hne, Bool.false_eq_true, if_false, hdl]
  constructor
  · by_cases hc : (outs.filter isSuccessOutcome).length = 0
      ∧ outs.filterMap outcomeErrMsg ≠ []
    · rw [if_pos hc]
      constructor
      · intro h
        simp at h
      · intro h
        rcases h with h | h
        · exact ((hcount.2 h) hc.1).elim
        · exact (hc.2 (herrs.2 h)).elim
    · rw [if_neg hc]
      constructor
      · intro _
        rcases Decidable.not_and_iff_or_not.1 hc with h | h
        · exact Or.inl (hcount.1 h)
        · exact Or.inr (herrs.1 (not_not.1 h))
      · intro _
        rfl
  · constructor
    · intro h
      exact hcount.1 (by simpa using h)
    · intro h
      simpa using hcount.2 h

/-- Claim C6 witness: one successful target a1 and one NotFound target zz
on the two-item sample list: the invocation succeeds and persists. -/
theorem done_overall_policy_witness :
    ((Marc.done [("a1").toList, ("zz").toList] [itemA1, itemA2]).res = .ok ()
      ↔ ((∃ o ∈ (Marc.done [("a1").toList, ("zz").toList] [itemA1, itemA2]).outcomes,
            isSuccessOutcome o = true)
          ∨ (∀ o ∈ (Marc.done [("a1").toList, ("zz").toList] [itemA1, itemA2]).outcomes,
              outcomeErrMsg o = none)))
    ∧ ((Marc.done [("a1").toList, ("zz").toList] [itemA1, itemA2]).saved = true
      ↔ (∃ o ∈ (Marc.done [("a1").toList, ("zz").toList] [itemA1, itemA2]).outcomes,
          isSuccessOutcome o = true)) :=
  done_overall_policy [("a1").toList, ("zz").toList] [itemA1, itemA2]
    (by decide) (by decide)

theorem set_getD_self {α : Type} (l : List α) (i : Nat) (d : α) :
    l.set i (l.getD i d) = l := by
  induction l generalizing i with
  | nil => simp
  | cons a t ih =>
    cases i with
    | zero => rw [List.getD_cons_zero]; rfl
    | succ j =>
      rw [List.getD_cons_succ]
      show a :: t.set j (t.getD j d) = a :: t
      rw [ih j]

theorem getD_map_hash (l : List TodoItem) (i : Nat) :
    (l.map (fun it => it.hash)).getD i (dummyItem.hash)
      = (l.getD i dummyItem).hash := by
  induction l generalizing i with
  | nil => simp
  | cons a t ih =>
    cases i with
    | zero => simp [List.getD]
    | succ j => simpa [List.getD] using ih j

theorem markDoneItems_map_hash (pfx : Str) (items : List TodoItem) :
    (markDoneItems pfx items).map (fun it => it.hash)
      = items.map (fun it => it.hash) := by
  unfold markDoneItems mark_done
  match hm : matchingIndices pfx items with
  | [] => rfl
  | [i] =>
    by_cases hc : (items.getD i dummyItem).is_completed
    · simp only [hc, if_true]
    · simp only [hc, Bool.false_eq_true, if_false]
      rw [List.map_set]
      have hh : ({ items.getD i dummyItem with is_completed := true } : TodoItem).hash
          = (items.map (fun it => it.hash)).getD i (dummyItem.hash) := by
        rw [getD_map_hash]
      rw [hh, set_getD_self]
  | a :: b :: t => rfl

theorem editLineIndex_lt (n : Nat) (line : Str) (i : Nat) :
    editLineIndex n line = some i → i < n := by
  intro h
  unfold editLineIndex editLineIndexCore at h
  split at h
  · simp at h
  · split at h
    · simp at h
    · split at h
      · split at h
        · split at h
          · split at h
            · simp at h
            · rename_i hrange _
              rw [Option.some_inj] at h
              omega
          · simp at h
        · simp at h
      · simp at h

theorem picks_lt (content : Str) (n : Nat) :
    ∀ i ∈ picks content n, i < n := by
  intro i hi
  unfold picks at hi
  obtain ⟨line, _, hline⟩ := List.mem_filterMap.1 hi
  exact editLineIndex_lt n line i hline

theorem parse_eq_picks (content : Str) (orig : List TodoItem) :
    parse_edit_commands content orig
      = (picks content orig.length).filterMap (fun i => orig.get? i) := by
  unfold parse_edit_commands picks
  rw [List.filterMap_filterMap]
  have hfun : editLineItem orig
      = fun line => (editLineIndex orig.length line).bind (fun i => orig.get? i) := by
    funext line
    unfold editLineItem
    cases editLineIndex orig.length line <;> rfl
  rw [hfun]

theorem filterMap_get?_eq_map (orig : List TodoItem) (ps : List Nat)
    (h : ∀ i ∈ ps, i < orig.length) :
    ps.filterMap (fun i => orig.get? i)
      = ps.map (fun i => orig.getD i dummyItem) := by
  induction ps with
  | nil => rfl
  | cons a t ih =>
    have ha : a < orig.length := h a (List.mem_cons_self a t)
    have hget : orig.get? a = some (orig.getD a dummyItem) := by
      rw [List.getD_eq_getElem orig dummyItem ha]
      exact List.get?_eq_get ha
    rw [List.filterMap_cons, hget, List.map_cons,
      ih (fun i hi => h i (List.mem_cons_of_mem a hi))]

theorem picked_hashes_nodup (orig : List TodoItem) (ps : List Nat)
    (horig : HashesDistinct orig) (hnd : ps.Nodup)
    (hlt : ∀ i ∈ ps, i < orig.length) :
    HashesDistinct (ps.map (fun i => orig.getD i dummyItem)) := by
  unfold HashesDistinct
  rw [List.map_map]
  refine List.Nodup.map_on ?_ hnd
  intro i hi j hj heq
  have hi2 : i < orig.length := hlt i hi
  have hj2 : j < orig.length := hlt j hj
  have hi3 : i < (orig.map (fun it => it.hash)).length := by simpa using hi2
  have hj3 : j < (orig.map (fun it => it.hash)).length := by simpa using hj2
  have hgi : ((fun it => it.hash) ∘ fun k => orig.getD k dummyItem) i
      = (orig.map (fun it => it.hash)).get ⟨i, hi3⟩ := by
    show (orig.getD i dummyItem).hash = _
    rw [List.getD_eq_getElem orig dummyItem hi2, List.get_eq_getElem,
      List.getElem_map]
  have hgj : ((fun it => it.hash) ∘ fun k => orig.getD k dummyItem) j
      = (orig.map (fun it => it.hash)).get ⟨j, hj3⟩ := by
    show (orig.getD j dummyItem).hash = _
    rw [List.getD_eq_getElem orig dummyItem hj2, List.get_eq_getElem,
      List.getElem_map]
  rw [hgi, hgj] at heq
  exact congrArg Fin.val (List.nodup_iff_injective_get.1 horig heq)

/-- Claim C2 (counterexample): a state with two identical hashes is
reachable through the store's operations.  From the empty list, one add
(with whatever hash the external hasher returned) gives a single item;
re-ingesting the edit buffer p 1 z, p 1 z then duplicates that item,
because parse_edit_commands accepts the same index twice.  The hash
fields of the resulting state are not pairwise distinct. -/
theorem reachable_duplicate_hashes :
    Reachable [itemNl, itemNl] ∧ ¬ HashesDistinct [itemNl, itemNl] := by
  constructor
  · have hadd : add_item [] (("x\nfoo 1").toList) none (("aaaaaaa").toList)
        = [itemNl] := by decide
    have h1 := Reachable.add [] (("x\nfoo 1").toList) none (("aaaaaaa").toList)
      Reachable.empty
    rw [hadd] at h1
    have hedit : parse_edit_commands (("p 1 z\np 1 z").toList) [itemNl]
        = [itemNl, itemNl] := by decide
    have h2 := Reachable.edit [itemNl] (("p 1 z\np 1 z").toList) h1 (by decide)
    rwa [hedit] at h2
  · unfold HashesDistinct
    decide

/-- Claim C2 (amended): hash uniqueness is an invariant of the reachable
states provided the two guards the code itself does not enforce hold
along the history: every hash produced by the generator is absent from
the list it is added to, and every re-ingested edit buffer picks
pairwise-distinct indices.  Remove and mark-done preserve uniqueness
unconditionally. -/
theorem guarded_reachable_hashes_distinct (s : List TodoItem)
    (h : GuardedReachable s) : HashesDistinct s := by
  induction h with
  | empty => simp [HashesDistinct]
  | add s desc tag hsh hr hfresh ih =>
    unfold HashesDistinct add_item
    simp only [List.map_append, List.map_cons, List.map_nil]
    rw [← List.concat_eq_append]
    exact List.Nodup.concat hfresh ih
  | rm s pfx hr ih =>
    have hsub : List.Sublist ((rm_item pfx s).1.map (fun it => it.hash))
        (s.map (fun it => it.hash)) := by
      unfold rm_item
      cases hm : matchingIndices pfx s with
      | nil => exact List.Sublist.refl _
      | cons a t =>
        cases t with
        | nil => exact (List.eraseIdx_sublist s a).map (fun it => it.hash)
        | cons b u => exact List.Sublist.refl _
    exact List.Nodup.sublist hsub ih
  | markDone s pfx hr ih =>
    unfold HashesDistinct
    rw [markDoneItems_map_hash]
    exact ih
  | edit s content hr hne hnd ih =>
    unfold HashesDistinct
    rw [parse_eq_picks, filterMap_get?_eq_map s _ (picks_lt content s.length)]
    exact picked_hashes_nodup s _ ih hnd (picks_lt content s.length)

/-- Claim C2 witness: the singleton state reached by one guarded add has
pairwise-distinct hashes. -/
theorem guarded_reachable_hashes_distinct_witness : HashesDistinct [itemA1] := by
  have h0 := GuardedReachable.add [] (("alpha").toList) none (("a1x").toList)
    GuardedReachable.empty (by simp)
  have hadd : add_item [] (("alpha").toList) none (("a1x").toList) = [itemA1] := by
    decide
  rw [hadd] at h0
  exact guarded_reachable_hashes_distinct [itemA1] h0

theorem digitChar_isDigit (k : Nat) (h : k < 10) :
    (Nat.digitChar k).isDigit = true := by
  interval_cases k <;> decide

theorem digitChar_val (k : Nat) (h : k < 10) :
    (Nat.digitChar k).toNat - 48 = k := by
  interval_cases k <;> decide

theorem digit_not_ws (c : Char) (h : c.isDigit = true) :
    c.isWhitespace = false := by
  cases hw : c.isWhitespace with
  | false => rfl
  | true =>
    exfalso
    simp only [Char.isWhitespace, Bool.or_eq_true, decide_eq_true_eq] at hw
    rcases hw with ((h1 | h1) | h1) | h1 <;> rw [h1] at h <;> exact absurd h (by decide)

theorem digit_ne (c x : Char) (h : c.isDigit = true) (hx : x.isDigit = false) :
    c ≠ x := by
  intro he
  rw [he, hx] at h
  exact absurd h (by decide)

theorem reprBaseAux10_spec (f : Nat) : ∀ n, n < f →
    reprBaseAux 10 f n ≠ []
    ∧ (∀ c ∈ reprBaseAux 10 f n, c.isDigit = true)
    ∧ (reprBaseAux 10 f n).foldl (fun a c => 10 * a + (c.toNat - 48)) 0 = n := by
  induction f with
  | zero => intro n hn; omega
  | succ f ih =>
    intro n hn
    by_cases hsmall : n < 10
    · unfold reprBaseAux
      rw [if_pos hsmall]
      refine ⟨by simp, ?_, ?_⟩
      · intro c hc
        rw [List.mem_singleton] at hc
        rw [hc]
        exact digitChar_isDigit n hsmall
      · simp [digitChar_val n hsmall]
    · have hlt : n / 10 < f := by
        have h1 : n / 10 < n := Nat.div_lt_self (by omega) (by omega)
        omega
      obtain ⟨hne, hdig, hval⟩ := ih (n / 10) hlt
      unfold reprBaseAux
      rw [if_neg hsmall]
      refine ⟨by simp, ?_, ?_⟩
      · intro c hc
        rw [List.mem_append] at hc
        rcases hc with hc | hc
        · exact hdig c hc
        · rw [List.mem_singleton] at hc
          rw [hc]
          exact digitChar_isDigit (n % 10) (Nat.mod_lt n (by omega))
      · rw [List.foldl_append, hval]
        simp only [List.foldl_cons, List.foldl_nil]
        rw [digitChar_val (n % 10) (Nat.mod_lt n (by omega))]
        omega

theorem natRepr_spec (n : Nat) :
    natRepr n ≠ []
    ∧ (∀ c ∈ natRepr n, c.isDigit = true)
    ∧ (natRepr n).foldl (fun a c => 10 * a + (c.toNat - 48)) 0 = n :=
  reprBaseAux10_spec (n + 1) n (Nat.lt_succ_self n)

theorem parseNat?_natRepr (n : Nat) : parseNat? (natRepr n) = some n := by
  obtain ⟨hne, hdig, hval⟩ := natRepr_spec n
  have hhead : ¬ (natRepr n).head? = some '+' := by
    cases hrep : natRepr n with
    | nil => simp
    | cons c t =>
      have hc : c.isDigit = true :=
        hdig c (by rw [hrep]; exact List.mem_cons_self c t)
      simp only [List.head?]
      intro he
      rw [Option.some_inj] at he
      rw [he] at hc
      exact absurd hc (by decide)
  unfold parseNat?
  rw [if_neg hhead]
  unfold parseDigits
  rw [if_pos, Option.some_inj, hval]
  refine ⟨hne, ?_⟩
  rw [List.all_eq_true]
  intro c hc
  simpa using hdig c hc

theorem splitOnChar_ne_nil (c : Char) (s : Str) : splitOnChar c s ≠ [] := by
  cases s with
  | nil => simp [splitOnChar]
  | cons a rest =>
    unfold splitOnChar
    cases splitOnChar c rest with
    | nil => simp
    | cons h t =>
      by_cases hac : a = c
      · simp [hac]
      · simp [hac]

theorem splitOnChar_cons_eq (c a : Char) (rest : Str) (h : Str) (t : List Str)
    (hs : splitOnChar c rest = h :: t) :
    splitOnChar c (a :: rest)
      = if a = c then [] :: h :: t else (a :: h) :: t := by
  conv_lhs => unfold splitOnChar
  rw [hs]

theorem splitOnChar_append_cons (c : Char) (xs ys : Str) (h : c ∉ xs) :
    splitOnChar c (xs ++ c :: ys) = xs :: splitOnChar c ys := by
  induction xs with
  | nil =>
    cases hs : splitOnChar c ys with
    | nil => exact absurd hs (splitOnChar_ne_nil c ys)
    | cons a t =>
      rw [List.nil_append, splitOnChar_cons_eq c c ys a t hs, if_pos rfl]
  | cons x xs ih =>
    have hx : x ≠ c := fun he => h (by rw [he]; exact List.mem_cons_self c xs)
    have hxs : c ∉ xs := fun hm => h (List.mem_cons_of_mem x hm)
    rw [List.cons_append,
      splitOnChar_cons_eq c x (xs ++ c :: ys) xs (splitOnChar c ys) (ih hxs),
      if_neg hx]

theorem splitOnChar_of_not_mem (c : Char) (s : Str) (h : c ∉ s) :
    splitOnChar c s = [s] := by
  induction s with
  | nil => rfl
  | cons a rest ih =>
    have ha : a ≠ c := fun he => h (by rw [he]; exact List.mem_cons_self c rest)
    have hr : c ∉ rest := fun hm => h (List.mem_cons_of_mem a hm)
    rw [splitOnChar_cons_eq c a rest rest [] (ih hr), if_neg ha]

theorem splitFirst_not_mem (c : Char) (s : Str) (h : c ∉ s) :
    splitFirst c s = none := by
  induction s with
  | nil => rfl
  | cons a rest ih =>
    have ha : a ≠ c := fun he => h (by rw [he]; exact List.mem_cons_self c rest)
    have hr : c ∉ rest := fun hm => h (List.mem_cons_of_mem a hm)
    unfold splitFirst
    rw [if_neg ha, ih hr]

theorem splitFirst_append_cons (c : Char) (xs ys : Str) (h : c ∉ xs) :
    splitFirst c (xs ++ c :: ys) = some (xs, ys) := by
  induction xs with
  | nil =>
    unfold splitFirst
    simp
  | cons x xs ih =>
    have hx : x ≠ c := fun he => h (by rw [he]; exact List.mem_cons_self c xs)
    have hxs : c ∉ xs := fun hm => h (List.mem_cons_of_mem x hm)
    rw [List.cons_append]
    unfold splitFirst
    rw [if_neg hx, ih hxs]

theorem dropWhile_append_of_ne_nil {p : Char → Bool} (u v : Str)
    (h : u.dropWhile p ≠ []) :
    (u ++ v).dropWhile p = u.dropWhile p ++ v := by
  induction u with
  | nil => exact absurd rfl h
  | cons a t ih =>
    by_cases hp : p a
    · rw [List.cons_append, List.dropWhile_cons, if_pos hp]
      rw [List.dropWhile_cons, if_pos hp] at h ⊢
      exact ih h
    · rw [List.cons_append, List.dropWhile_cons, if_neg hp,
        List.dropWhile_cons, if_neg hp, List.cons_append]

theorem dropWhile_append_of_nil {p : Char → Bool} (u v : Str)
    (h : u.dropWhile p = []) :
    (u ++ v).dropWhile p = v.dropWhile p := by
  induction u with
  | nil => rfl
  | cons a t ih =>
    rw [List.dropWhile_cons] at h
    by_cases hp : p a
    · rw [List.cons_append, List.dropWhile_cons, if_pos hp]
      rw [if_pos hp] at h
      exact ih h
    · rw [if_neg hp] at h
      exact absurd h (by simp)

theorem trimRight_append_of_ne_nil (A B : Str) (h : trimRight B ≠ []) :
    trimRight (A ++ B) = A ++ trimRight B := by
  unfold trimRight at h ⊢
  have hd : B.reverse.dropWhile Char.isWhitespace ≠ [] := by
    intro hnil
    rw [hnil] at h
    exact h rfl
  rw [List.reverse_append, dropWhile_append_of_ne_nil _ _ hd,
    List.reverse_append, List.reverse_reverse]

theorem trimRight_append_of_nil (A B : Str) (h : trimRight B = []) :
    trimRight (A ++ B) = trimRight A := by
  unfold trimRight at h ⊢
  have hd : B.reverse.dropWhile Char.isWhitespace = [] := by
    cases hnil : B.reverse.dropWhile Char.isWhitespace with
    | nil => rfl
    | cons a t =>
      rw [hnil] at h
      exact absurd h (by simp)
  rw [List.reverse_append, dropWhile_append_of_nil _ _ hd]

theorem trimRight_eq_nil_of_all_ws (B : Str)
    (h : ∀ c ∈ B, c.isWhitespace = true) : trimRight B = [] := by
  unfold trimRight
  have : B.reverse.dropWhile Char.isWhitespace = [] := by
    rw [List.dropWhile_eq_nil_iff]
    intro a ha
    exact h a (List.mem_reverse.1 ha)
  rw [this]
  rfl

theorem trimRight_of_all_not_ws (s : Str)
    (h : ∀ c ∈ s, c.isWhitespace = false) : trimRight s = s := by
  unfold trimRight
  cases hrev : s.reverse with
  | nil =>
    have : s = [] := by simpa using congrArg List.reverse hrev
    rw [this]
    rfl
  | cons a t =>
    have ha : a.isWhitespace = false := by
      apply h
      rw [← List.mem_reverse, hrev]
      exact List.mem_cons_self a t
    rw [List.dropWhile_cons, ha]
    simp only [Bool.false_eq_true, if_false]
    rw [← hrev, List.reverse_reverse]

theorem trimLeft_cons_not_ws (a : Char) (t : Str) (h : a.isWhitespace = false) :
    trimLeft (a :: t) = a :: t := by
  unfold trimLeft
  rw [List.dropWhile_cons, h]
  simp

theorem trimList_dropCR (s : Str) : trimList (dropCR s) = trimList s := by
  unfold dropCR
  by_cases hl : s.getLast? = some '\r'
  · rw [if_pos hl]
    have hs : s.dropLast ++ ['\r'] = s := List.dropLast_append_getLast? '\r' hl
    conv_rhs => rw [← hs]
    unfold trimList
    rw [trimRight_append_of_nil _ _ (trimRight_eq_nil_of_all_ws ['\r'] ?_)]
    intro c hc
    rw [List.mem_singleton] at hc
    rw [hc]
    decide
  · rw [if_neg hl]

theorem dropLastIfEmpty_cons (x : Str) (S : List Str) (h : S ≠ []) :
    dropLastIfEmpty (x :: S) = x :: dropLastIfEmpty S := by
  cases S with
  | nil => exact absurd rfl h
  | cons s0 S2 =>
    unfold dropLastIfEmpty
    rw [List.getLast?_cons_cons]
    by_cases hl : (s0 :: S2).getLast? = some []
    · rw [if_pos hl, if_pos hl]
      rfl
    · rw [if_neg hl, if_neg hl]

theorem linesOf_append_row (xs B : Str) (h : '\n' ∉ xs) :
    linesOf (xs ++ '\n' :: B) = dropCR xs :: linesOf B := by
  unfold linesOf
  rw [splitOnChar_append_cons '\n' xs B h,
    dropLastIfEmpty_cons xs _ (splitOnChar_ne_nil '\n' B), List.map_cons]

theorem editLineIndexCore_of (n : Nat) (line : Str) (hne : line ≠ [])
    (hhead : ¬ line.head? = some '#') (cmd idxStr : Str) (rest : List Str)
    (hsplit : splitn3 ' ' line = cmd :: idxStr :: rest) (j : Nat)
    (hparse : parseNat? idxStr = some j) (hrange : 0 < j ∧ j ≤ n)
    (hcmd : ¬(cmd = ("drop").toList ∨ cmd = ("d").toList)) :
    editLineIndexCore n line = some (j - 1) := by
  unfold editLineIndexCore
  rw [if_neg hne, if_neg hhead, hsplit]
  dsimp only
  rw [hparse]
  dsimp only
  rw [if_pos hrange, if_neg hcmd]

theorem get?_of_drop_eq (l : List TodoItem) (k : Nat) (a : TodoItem)
    (t : List TodoItem) (h : l.drop k = a :: t) : l.get? k = some a := by
  induction l generalizing k with
  | nil => simp at h
  | cons x xs ih =>
    cases k with
    | zero =>
      rw [List.drop_zero] at h
      rw [List.get?]
      exact congrArg some (List.head_eq_of_cons_eq h)
    | succ k2 =>
      rw [List.drop_succ_cons] at h
      rw [List.get?]
      exact ih k2 h

theorem filterMap_trailer (orig : List TodoItem) :
    (linesOf editTrailer).filterMap (editLineItem orig) = [] := rfl


theorem editLineIndex_pickRow (n k : Nat) (d : Str) (hk : k < n) :
    editLineIndex n (dropCR (("pick ").toList ++ natRepr (k + 1) ++ ' ' :: d))
      = some k := by
  unfold editLineIndex
  rw [trimList_dropCR]
  obtain ⟨hrne, hrdig, _⟩ := natRepr_spec (k + 1)
  have hrnws : ∀ c ∈ natRepr (k + 1), c.isWhitespace = false :=
    fun c hc => digit_not_ws c (hrdig c hc)
  have hrnospace : ' ' ∉ natRepr (k + 1) := by
    intro hm
    have := hrnws ' ' hm
    simp at this
  have htrep : trimRight (natRepr (k + 1)) = natRepr (k + 1) :=
    trimRight_of_all_not_ws _ hrnws
  have hcmdne : ¬((("pick").toList : Str) = ("drop").toList
      ∨ (("pick").toList : Str) = ("d").toList) := by decide
  by_cases hd : trimRight d = []
  · have h1 : trimRight (' ' :: d) = [] := by
      have hsh : (' ' :: d : Str) = [' '] ++ d := rfl
      rw [hsh, trimRight_append_of_nil [' '] d hd]
      refine trimRight_eq_nil_of_all_ws [' '] ?_
      intro c hc
      rw [List.mem_singleton] at hc
      rw [hc]
      decide
    have h2 : trimRight (("pick ").toList ++ natRepr (k + 1) ++ ' ' :: d)
        = ("pick ").toList ++ natRepr (k + 1) := by
      rw [trimRight_append_of_nil _ _ h1,
        trimRight_append_of_ne_nil _ _ (by rw [htrep]; exact hrne), htrep]
    have h3 : trimList (("pick ").toList ++ natRepr (k + 1) ++ ' ' :: d)
        = ("pick ").toList ++ natRepr (k + 1) := by
      unfold trimList
      rw [h2]
      exact trimLeft_cons_not_ws 'p' _ (by decide)
    rw [h3]
    have hshape : (("pick ").toList ++ natRepr (k + 1) : Str)
        = ("pick").toList ++ ' ' :: natRepr (k + 1) := rfl
    have hshape2 : (("pick ").toList ++ natRepr (k + 1) : Str)
        = 'p' :: (("ick ").toList ++ natRepr (k + 1)) := rfl
    have hsplit : splitn3 ' ' (("pick ").toList ++ natRepr (k + 1))
        = [("pick").toList, natRepr (k + 1)] := by
      rw [hshape]
      unfold splitn3
      rw [splitFirst_append_cons ' ' _ _ (by decide)]
      dsimp only
      rw [splitFirst_not_mem ' ' _ hrnospace]
    have hcore := editLineIndexCore_of n (("pick ").toList ++ natRepr (k + 1))
      (by rw [hshape2]; exact List.cons_ne_nil _ _)
      (by
        rw [hshape2, List.head?_cons]
        intro hh
        rw [Option.some_inj] at hh
        exact absurd hh (by decide))
      (("pick").toList) (natRepr (k + 1)) [] hsplit (k + 1)
      (parseNat?_natRepr (k + 1)) ⟨Nat.succ_pos k, hk⟩ hcmdne
    rw [hcore]
    simp
  · have h1 : trimRight (' ' :: d) = ' ' :: trimRight d := by
      have hsh : (' ' :: d : Str) = [' '] ++ d := rfl
      rw [hsh, trimRight_append_of_ne_nil [' '] d hd]
      rfl
    have h2 : trimRight (("pick ").toList ++ natRepr (k + 1) ++ ' ' :: d)
        = ("pick ").toList ++ natRepr (k + 1) ++ ' ' :: trimRight d := by
      rw [trimRight_append_of_ne_nil _ _ (by rw [h1]; exact List.cons_ne_nil _ _), h1]
    have h3 : trimList (("pick ").toList ++ natRepr (k + 1) ++ ' ' :: d)
        = ("pick ").toList ++ natRepr (k + 1) ++ ' ' :: trimRight d := by
      unfold trimList
      rw [h2]
      exact trimLeft_cons_not_ws 'p' _ (by decide)
    rw [h3]
    have hshape : (("pick ").toList ++ natRepr (k + 1) ++ ' ' :: trimRight d : Str)
        = ("pick").toList ++ ' ' :: (natRepr (k + 1) ++ ' ' :: trimRight d) := by
      rw [List.append_assoc]
      rfl
    have hshape2 : (("pick ").toList ++ natRepr (k + 1) ++ ' ' :: trimRight d : Str)
        = 'p' :: (("ick ").toList ++ natRepr (k + 1) ++ ' ' :: trimRight d) := rfl
    have hsplit : splitn3 ' ' (("pick ").toList ++ natRepr (k + 1) ++ ' ' :: trimRight d)
        = [("pick").toList, natRepr (k + 1), trimRight d] := by
      rw [hshape]
      unfold splitn3
      rw [splitFirst_append_cons ' ' _ _ (by decide)]
      dsimp only
      rw [splitFirst_append_cons ' ' _ _ hrnospace]
    have hcore := editLineIndexCore_of n
      (("pick ").toList ++ natRepr (k + 1) ++ ' ' :: trimRight d)
      (by rw [hshape2]; exact List.cons_ne_nil _ _)
      (by
        rw [hshape2, List.head?_cons]
        intro hh
        rw [Option.some_inj] at hh
        exact absurd hh (by decide))
      (("pick").toList) (natRepr (k + 1)) [trimRight d] hsplit (k + 1)
      (parseNat?_natRepr (k + 1)) ⟨Nat.succ_pos k, hk⟩ hcmdne
    rw [hcore]
    simp

theorem roundtrip_aux (orig : List TodoItem) : ∀ (tail : List TodoItem) (k : Nat),
    tail = orig.drop k → (∀ it ∈ tail, ('\n') ∉ it.desc) →
    (linesOf (pickLinesAux k tail ++ editTrailer)).filterMap (editLineItem orig)
      = tail := by
  intro tail
  induction tail with
  | nil =>
    intro k _ _
    rw [pickLinesAux, List.nil_append]
    exact filterMap_trailer orig
  | cons it rest ih =>
    intro k hdrop hnl
    have hk : k < orig.length := by
      by_contra hge
      push_neg at hge
      rw [List.drop_eq_nil_of_le hge] at hdrop
      simp at hdrop
    have hget : orig.get? k = some it := get?_of_drop_eq orig k it rest hdrop.symm
    have hrest : rest = orig.drop (k + 1) := by
      have h1 : (orig.drop k).drop 1 = orig.drop (k + 1) := List.drop_drop 1 k orig
      rw [← hdrop] at h1
      simpa using h1
    have hrowassoc : pickLinesAux k (it :: rest) ++ editTrailer
        = (("pick ").toList ++ natRepr (k + 1) ++ ' ' :: it.desc)
          ++ '\n' :: (pickLinesAux (k + 1) rest ++ editTrailer) := by
      rw [pickLinesAux]
      unfold pickRow
      simp [List.append_assoc]
    rw [hrowassoc]
    obtain ⟨-, hrdig2, -⟩ := natRepr_spec (k + 1)
    have hnlrow : ('\n') ∉ (("pick ").toList ++ natRepr (k + 1) ++ ' ' :: it.desc) := by
      intro hm
      rw [List.mem_append, List.mem_append] at hm
      rcases hm with (hm | hm) | hm
      · exact absurd hm (by decide)
      · exact absurd (hrdig2 '\n' hm) (by decide)
      · rw [List.mem_cons] at hm
        rcases hm with hm | hm
        · exact absurd hm (by decide)
        · exact hnl it (List.mem_cons_self it rest) hm
    rw [linesOf_append_row _ _ hnlrow]
    have hitem : editLineItem orig
        (dropCR (("pick ").toList ++ natRepr (k + 1) ++ ' ' :: it.desc)) = some it := by
      unfold editLineItem
      rw [editLineIndex_pickRow orig.length k it.desc hk]
      exact hget
    rw [List.filterMap_cons, hitem]
    rw [ih (k + 1) hrest (fun x hx => hnl x (List.mem_cons_of_mem it hx))]

set_option maxRecDepth 4000 in
/-- Claim C9 (counterexample): the edit round-trip is not the identity
for every list.  For the single item whose description is the two-line
text x, foo 1, the serialized buffer contains the description verbatim,
and its second line parses as a directive with the catch-all verb foo and
valid index 1, so re-ingesting the unmodified buffer yields two items
instead of one. -/
theorem edit_roundtrip_newline_counterexample :
    parse_edit_commands (editBuffer [itemNl]) [itemNl] ≠ [itemNl] := by decide

/-- Claim C9 (amended): for every list of items whose descriptions
contain no newline character, serializing the list to the edit scratch
buffer and re-ingesting the unmodified buffer through the edit-command
parser yields exactly the original items in the original order, with
hash, description, completion state and tag unchanged (each directive
line pushes the original item record at its index). -/
theorem edit_roundtrip_no_newline (items : List TodoItem)
    (h : ∀ it ∈ items, ('\n') ∉ it.desc) :
    parse_edit_commands (editBuffer items) items = items := by
  unfold editBuffer parse_edit_commands
  exact roundtrip_aux items items 0 (by simp) h

/-- Claim C9 witness: the two-item sample list round-trips unchanged. -/
theorem edit_roundtrip_no_newline_witness :
    parse_edit_commands (editBuffer [itemA1, itemA2]) [itemA1, itemA2]
      = [itemA1, itemA2] :=
  edit_roundtrip_no_newline [itemA1, itemA2] (by decide)

end Marc
